import Mathlib

/-!
Verification development for a source-map toolchain:
* `translateStackTrace` (stack-trace translator, `demo-translator.cjs`),
* `chainSourceMaps` (map composition, `scripts/chain-sourcemaps.cjs`),
* a mapping codec and position resolver for the consumer/generator layer,
  modelled from the specification of the mapping format (the consumer and
  generator themselves live in the external `source-map` package).

Strings are modelled as `List Char`; file systems as explicit functions from
paths to read results; Node `path` helpers are modelled POSIX-style without
normalisation (noted at each definition).
-/

namespace SM

/-- JS `\s` character class restricted to the common ASCII whitespace
characters (space, tab, LF, VT, FF, CR); the full class also contains
Unicode spaces, which never occur in the inputs treated here. -/
def jsSpace (c : Char) : Bool :=
  c = ' ' || c = '\t' || c = '\n' || c = '\x0b' || c = '\x0c' || c = '\r'

/-- JS `\d` character class. -/
def jsDigit (c : Char) : Bool :=
  '0' ≤ c && c ≤ '9'

/-- JS `.` (dot) character class: any character except a line terminator. -/
def jsDot (c : Char) : Bool :=
  c ≠ '\n' && c ≠ '\r' && c.val ≠ 0x2028 && c.val ≠ 0x2029

/-- JS `String.prototype.trim`: strip leading and trailing whitespace. -/
def trimChars (s : List Char) : List Char :=
  ((s.dropWhile jsSpace).reverse.dropWhile jsSpace).reverse

/-- First result of `k` over the candidate list, in order: the backtracking
search of a regex quantifier over its candidate lengths. -/
def firstSome {α β : Type} : List α → (α → Option β) → Option β
  | [], _ => none
  | a :: r, k =>
    match k a with
    | some b => some b
    | none => firstSome r k

/-- Candidate lengths for a lazy `+` over a single-character class whose
maximal run has length `m`: `1, 2, …, m` (shortest first). -/
def lazyLens (m : Nat) : List Nat := List.range' 1 m

/-- Candidate lengths for a greedy `+` over a single-character class whose
maximal run has length `m`: `m, m-1, …, 1` (longest first). -/
def greedyLens (m : Nat) : List Nat := (List.range' 1 m).reverse

/-- The four capture groups of the stack-frame pattern
`at\s+(?:(.+?)\s+\()?(.+?):(\d+):(\d+)\)?` from `demo-translator.cjs`. -/
structure RawMatch where
  g1 : Option (List Char)
  g2 : List Char
  g3 : List Char
  g4 : List Char
deriving DecidableEq

/-- Tail of the pattern `:(\d+):(\d+)\)?` (after group 2): a colon, greedy
digits (group 3), a colon, greedy digits (group 4), an optional `)` and the
end of the pattern (which always succeeds, unanchored). -/
def tailStage (g1 : Option (List Char)) (g2 : List Char) (s : List Char) :
    Option RawMatch :=
  match s with
  | ':' :: s1 =>
    firstSome (greedyLens (s1.takeWhile jsDigit).length) fun i =>
      match s1.drop i with
      | ':' :: s2 =>
        firstSome (greedyLens (s2.takeWhile jsDigit).length) fun j =>
          some ⟨g1, g2, s1.take i, s2.take j⟩
      | _ => none
  | _ => none

/-- Group 2 of the pattern: `(.+?)` (lazy), followed by the tail. -/
def g2Stage (g1 : Option (List Char)) (s : List Char) : Option RawMatch :=
  firstSome (lazyLens (s.takeWhile jsDot).length) fun i =>
    tailStage g1 (s.take i) (s.drop i)

/-- The optional group `(?:(.+?)\s+\()?`: being greedy, every way of
matching the group is tried before the group is skipped. -/
def optGroupStage (s : List Char) : Option RawMatch :=
  let withGroup :=
    firstSome (lazyLens (s.takeWhile jsDot).length) fun i =>
      let s1 := s.drop i
      firstSome (greedyLens (s1.takeWhile jsSpace).length) fun j =>
        match s1.drop j with
        | '(' :: s2 => g2Stage (some (s.take i)) s2
        | _ => none
  match withGroup with
  | some r => some r
  | none => g2Stage none s

/-- Head of the pattern at a fixed start offset: literal `at`, then greedy
`\s+`, then the rest of the pattern. -/
def atStage (s : List Char) : Option RawMatch :=
  match s with
  | 'a' :: 't' :: s1 =>
    firstSome (greedyLens (s1.takeWhile jsSpace).length) fun k =>
      optGroupStage (s1.drop k)
  | _ => none

/-- Leftmost match of the frame pattern, as `String.prototype.match` with a
non-global regex: start offsets are tried left to right. -/
def scanMatch : List Char → Option RawMatch
  | [] => none
  | s@(_ :: rest) =>
    match atStage s with
    | some r => some r
    | none => scanMatch rest

/-- `parseInt` on a non-empty digit string. -/
def natOfDigits (ds : List Char) : Nat :=
  ds.foldl (fun a c => a * 10 + (c.val.toNat - 48)) 0

/-- `match[1] ? match[1].trim() : '<anonymous>'`. -/
def functionNameOf (m : RawMatch) : List Char :=
  match m.g1 with
  | some t => trimChars t
  | none => "<anonymous>".toList

/-- The frame extraction of `demo-translator.cjs` lines 36–43: run the
pattern on the (already trimmed) line and read off the four fields. -/
def parseFrame (trimmedLine : List Char) :
    Option (List Char × List Char × Nat × Nat) :=
  (scanMatch trimmedLine).map fun m =>
    (functionNameOf m, trimChars m.g2, natOfDigits m.g3, natOfDigits m.g4)

/-! ## Mapping documents and the position resolver

Modelled from the spec: the decoded `MappingDocument` and the
`originalPositionFor` query of the external `source-map` consumer (§3,
§4.2 of the spec): a position resolves to the greatest segment at or
before it on the same generated line, earliest-wins on ties, restricted
to segments that carry an original position; no fallback to other lines. -/

/-- Original-position payload of a decoded segment. -/
structure OrigPos where
  srcIdx : Nat
  origLine : Nat
  origCol : Nat
deriving DecidableEq

/-- A decoded mapping segment (spec §3): generated position, optional
original position, optional name index. -/
structure Segment where
  genLine : Nat
  genCol : Nat
  orig : Option OrigPos
  nameIdx : Option Nat
deriving DecidableEq

/-- A decoded mapping document (spec §3): sources and names tables,
optional embedded content, segment table. -/
structure SMDoc where
  sources : List (List Char)
  names : List (List Char)
  sourcesContent : Option (List (Option (List Char)))
  segments : List Segment
deriving DecidableEq

/-- A fully populated resolution result (spec §4.2). -/
structure Resolved where
  source : List Char
  origLine : Nat
  origCol : Nat
  name : Option (List Char)
deriving DecidableEq

/-- Is `s` a candidate for a query at `(line, col)`: same generated line,
column at or before the query, and carrying an original position. -/
def candidate (line col : Nat) (s : Segment) : Bool :=
  s.genLine = line && s.genCol ≤ col && s.orig.isSome

/-- Modelled from the spec: nearest-preceding candidate segment on the
query's line, earliest-wins among equal columns (spec §3 invariants). -/
def findSeg (segs : List Segment) (line col : Nat) : Option Segment :=
  segs.foldl
    (fun acc s =>
      if candidate line col s then
        match acc with
        | none => some s
        | some b => if b.genCol < s.genCol then some s else acc
      else acc)
    none

/-- Modelled from the spec: `consumer.originalPositionFor` (§4.2), the
point query of the external `source-map` consumer over a decoded
document: either a fully populated original position or not-found. -/
def originalPositionFor (d : SMDoc) (line col : Nat) : Option Resolved :=
  match findSeg d.segments line col with
  | none => none
  | some s =>
    match s.orig with
    | none => none
    | some o =>
      match d.sources.get? o.srcIdx with
      | none => none
      | some src => some ⟨src, o.origLine, o.origCol, s.nameIdx.bind fun i => d.names.get? i⟩

/-- The Trace Resolver's column-0 retry, `demo-translator.cjs` lines
81–91: query at the exact column; if that yields no source and the column
is positive, query once more at column 0 of the same line. -/
def resolveWithFallback (d : SMDoc) (line col : Nat) : Option Resolved :=
  match originalPositionFor d line col with
  | some r => some r
  | none => if col > 0 then originalPositionFor d line 0 else none

/-! ## Path derivation (`demo-translator.cjs` lines 44–73)

Node `path` helpers are modelled POSIX-style: `/` is the separator,
`path.join` is bare separator concatenation (no `.`/`..` normalisation,
which no claim depends on). -/

/-- POSIX `path.isAbsolute`. -/
def isAbsolutePath (p : List Char) : Bool :=
  p.head? = some '/'

/-- First index of `pat` as a substring of `s` (`String.prototype.indexOf`). -/
def indexOfSub (s pat : List Char) : Option Nat :=
  if pat.isPrefixOf s then some 0
  else
    match s with
    | [] => none
    | _ :: r => (indexOfSub r pat).map (· + 1)

/-- POSIX `path.basename`: strip trailing separators, then keep the part
after the last separator. -/
def posixBasename (p : List Char) : List Char :=
  let t := (p.reverse.dropWhile (· = '/')).reverse
  (t.reverse.takeWhile (· ≠ '/')).reverse

/-- POSIX `path.dirname`: strip trailing separators and the last
component; empty results collapse to `/` or `.`. -/
def posixDirname (p : List Char) : List Char :=
  let t := (p.reverse.dropWhile (· = '/')).reverse
  let r := (t.reverse.dropWhile (· ≠ '/')).dropWhile (· = '/')
  if r.isEmpty then (if p.head? = some '/' then ['/'] else ['.']) else r.reverse

/-- `path.join` modelled as separator concatenation. -/
def joinPath (a b : List Char) : List Char :=
  if a.isEmpty then b else if b.isEmpty then a else a ++ '/' :: b

/-- `path.resolve(dir, s)` modelled without normalisation: an absolute
`s` stands alone, otherwise it is joined onto `dir`. -/
def resolvePath (dir s : List Char) : List Char :=
  if isAbsolutePath s then s else joinPath dir s

/-- JS `String.prototype.replace` with a string pattern: replace the
first occurrence only. -/
def replaceFirst : List Char → List Char → List Char → List Char
  | [], _, _ => []
  | s@(c :: rest), pat, rep =>
    if pat.isPrefixOf s then rep ++ s.drop pat.length
    else c :: replaceFirst rest pat rep

/-- Source-map path derivation of `demo-translator.cjs` lines 44–73: for
absolute paths, re-root the part after a `dist` marker under `distDir`;
for relative paths, take the base name, turn a `.ts` name into the
corresponding `.js` name (first-occurrence replace, as JS
`String.prototype.replace`), and append `.map` under `distDir`. -/
def computeSourceMapPath (distDir filePath : List Char) : List Char :=
  if isAbsolutePath filePath then
    match indexOfSub filePath "dist".toList with
    | some di =>
      let relativeFromDist := filePath.drop (di + 5)
      let jsFileName := posixBasename relativeFromDist
      let dirPath := posixDirname relativeFromDist
      joinPath (joinPath distDir dirPath) (jsFileName ++ ".map".toList)
    | none => joinPath distDir (posixBasename filePath ++ ".map".toList)
  else
    let jsFileName := posixBasename filePath
    let jsFileName :=
      if ".ts".toList.isSuffixOf jsFileName then
        replaceFirst jsFileName ".ts".toList ".js".toList
      else jsFileName
    joinPath distDir (jsFileName ++ ".map".toList)

/-! ## The stack-trace translator (`demo-translator.cjs` lines 25–166) -/

/-- Result of locating, reading and decoding a mapping document: the file
may be absent (`existsSync` false), reading/decoding may throw (caught at
lines 135–141), or a decoded document is obtained. -/
inductive DocResult where
  | missing
  | readErr (msg : List Char)
  | ok (d : SMDoc)

/-- The `translated` payload of a successfully resolved frame. -/
structure Translated where
  file : List Char
  line : Nat
  column : Nat
  name : List Char
  sourceCode : Option (List Char)
deriving DecidableEq

/-- One output entry of the translator: the input line verbatim, the
optional translation, the optional error reason, and the obfuscated
location echo of the success case. -/
structure FrameResult where
  original : List Char
  translated : Option Translated
  err : Option (List Char)
  obf : Option (List Char × Nat × Nat)
deriving DecidableEq

/-- Name-display policy, `demo-translator.cjs` lines 105–109:
`originalPosition.name && !originalPosition.name.startsWith('_0x') ?
originalPosition.name : functionName` (an absent or empty resolved name
is falsy). -/
def displayName (n : Option (List Char)) (functionName : List Char) : List Char :=
  match n with
  | some nm =>
    if nm.isEmpty then functionName
    else if "_0x".toList.isPrefixOf nm then functionName
    else nm
  | none => functionName

/-- Split on a separator character; mirrors JS `String.prototype.split`
with a single-character separator. -/
def splitOnChar (sep : Char) : List Char → List (List Char)
  | [] => [[]]
  | c :: rest =>
    let r := splitOnChar sep rest
    if c = sep then [] :: r
    else
      match r with
      | [] => [[c]]
      | g :: gs => (c :: g) :: gs

/-- First index of `x` in `l` (`Array.prototype.indexOf`). -/
def idxOfFirst {α : Type} [DecidableEq α] : List α → α → Option Nat
  | [], _ => none
  | a :: r, x => if a = x then some 0 else (idxOfFirst r x).map (· + 1)

/-- Original source line extraction, `demo-translator.cjs` lines 93–103:
when content is embedded, look the resolved source up in the sources
table, split its content into lines and trim the 1-based original line;
every JS falsiness check (absent table, missing index, empty content,
line 0, empty line) yields no source line. -/
def getSourceLine (d : SMDoc) (r : Resolved) : Option (List Char) :=
  match d.sourcesContent with
  | none => none
  | some contents =>
    match idxOfFirst d.sources r.source with
    | none => none
    | some i =>
      match contents.get? i with
      | none => none
      | some none => none
      | some (some content) =>
        if content.isEmpty then none
        else if r.origLine = 0 then none
        else
          match (splitOnChar '\n' content).get? (r.origLine - 1) with
          | none => none
          | some l => if l.isEmpty then none else some (trimChars l)

/-- Translation of a single diagnostic line, `demo-translator.cjs` lines
29–162: parse the trimmed line, derive the mapping path, load the
document, resolve with the column-0 fallback, and build exactly one
result entry; every failure is recorded in the entry itself. -/
def translateLine (fsDoc : List Char → DocResult) (distDir line : List Char) :
    FrameResult :=
  match parseFrame (trimChars line) with
  | none => ⟨line, none, none, none⟩
  | some (functionName, filePath, lineNum, column) =>
    if filePath.isEmpty then ⟨line, none, none, none⟩
    else
      match fsDoc (computeSourceMapPath distDir filePath) with
      | .missing =>
        ⟨line, none,
         some ("Source map not found: ".toList ++
           computeSourceMapPath distDir filePath), none⟩
      | .readErr msg =>
        ⟨line, none, some ("Error reading source map: ".toList ++ msg), none⟩
      | .ok d =>
        match resolveWithFallback d lineNum column with
        | none =>
          ⟨line, none, some "No original position found in source map".toList, none⟩
        | some r =>
          ⟨line,
           some ⟨r.source, r.origLine, r.origCol,
                 displayName r.name functionName, getSourceLine d r⟩,
           none,
           some (filePath, lineNum, column)⟩

/-- The translator, `demo-translator.cjs` lines 25–166: split the trace
on newlines and translate every line independently. -/
def translateStackTrace (fsDoc : List Char → DocResult) (distDir trace : List Char) :
    List FrameResult :=
  (splitOnChar '\n' trace).map (translateLine fsDoc distDir)

/-! ## Source-map composition (`scripts/chain-sourcemaps.cjs` lines 102–183) -/

/-- One mapping of the later-stage map B as `consumer.eachMapping`
presents it: generated position, optional original position with its
source path, optional name. -/
structure BMapping where
  genLine : Nat
  genCol : Nat
  src : Option (List Char × Nat × Nat)
  name : Option (List Char)
deriving DecidableEq

/-- A composed output segment as handed to `generator.addMapping`
(lines 160–171): B's generated position, A's resolved original position
and source, and the preferred name. -/
structure CSeg where
  genLine : Nat
  genCol : Nat
  origLine : Nat
  origCol : Nat
  source : List Char
  name : Option (List Char)
deriving DecidableEq

/-- `originalPosition.name || mapping.name` (line 158): JS `||`, under
which an absent or empty left name falls through to the right one. -/
def jsOrName (a b : Option (List Char)) : Option (List Char) :=
  match a with
  | some n => if n.isEmpty then b else some n
  | none => b

/-- The body of the `eachMapping` callback (lines 142–173): skip mappings
without a source; resolve the mapping's original position through A's
resolver; emit a composed segment only when A resolves it. -/
def chainOne (res : Nat → Nat → Option Resolved) (m : BMapping) : Option CSeg :=
  match m.src with
  | none => none
  | some (_, ol, oc) =>
    match res ol oc with
    | none => none
    | some r =>
      some ⟨m.genLine, m.genCol, r.origLine, r.origCol, r.source,
            jsOrName r.name m.name⟩

/-- The mapping loop of `chainSourceMaps`: every mapping of B is chained
through A's resolver, and exactly those that resolve are emitted. -/
def chainSegments (res : Nat → Nat → Option Resolved) (bs : List BMapping) :
    List CSeg :=
  bs.filterMap (chainOne res)

/-- The content-embedding step of `chainSourceMaps` (lines 117–139): with
embedded content in A, pair each source with its parallel entry; without,
pair each source with the result of reading it from the file system
relative to A's document directory (`none` covers both a missing file and
a read error, each caught per source at lines 125–137). -/
def embedContents (sc : Option (List (Option (List Char))))
    (sources : List (List Char)) (dir : List Char)
    (fsRead : List Char → Option (List Char)) :
    List (List Char × Option (List Char)) :=
  match sc with
  | some contents => sources.enum.map fun p => (p.2, (contents.get? p.1).join)
  | none => sources.map fun s => (s, fsRead (resolvePath dir s))

/-- The composed document: embedded contents plus chained segments. -/
structure ComposedDoc where
  contents : List (List Char × Option (List Char))
  segments : List CSeg
deriving DecidableEq

/-- `chainSourceMaps`'s successful path over decoded inputs: embed
contents from A (reading through the file system when absent) and chain
every mapping of B through A's resolver. -/
def composeChained (a : SMDoc) (aDir : List Char)
    (fsRead : List Char → Option (List Char)) (bs : List BMapping) :
    ComposedDoc :=
  ⟨embedContents a.sourcesContent a.sources aDir fsRead,
   chainSegments (originalPositionFor a) bs⟩

/-- `consumer.eachMapping` over a decoded document: each segment with its
source and name indices looked up in the tables; an out-of-range source
index yields a sourceless mapping. -/
def eachMappingList (d : SMDoc) : List BMapping :=
  d.segments.map fun s =>
    ⟨s.genLine, s.genCol,
     s.orig.bind fun o => (d.sources.get? o.srcIdx).map fun src => (src, o.origLine, o.origCol),
     s.nameIdx.bind fun i => d.names.get? i⟩

/-- `chainSourceMaps` including its `try`/`catch` (lines 103–182): any
failure to read or decode either input map is caught and turns the whole
composition into a `null` result; otherwise compose. -/
def chainSourceMaps (ra rb : DocResult) (aDir : List Char)
    (fsRead : List Char → Option (List Char)) : Option ComposedDoc :=
  match ra, rb with
  | .ok a, .ok b => some (composeChained a aDir fsRead (eachMappingList b))
  | _, _ => none

/-! ## The mapping codec

Modelled from the spec: the Mapping Decoder (§4.1) and Mapping Encoder
(§4.4) of the external `source-map` package, over the encoded segment
stream of §3: lines separated by `;`, segments within a line by `,`,
each segment 1, 4 or 5 signed relative deltas in base64 VLQ; the
generated-column delta resets per line, the other four are
document-scoped; out-of-range table indices are a decode error. -/

/-- The base64 digit alphabet. -/
def b64chars : List Char :=
  ['A','B','C','D','E','F','G','H','I','J','K','L','M','N','O','P','Q','R',
   'S','T','U','V','W','X','Y','Z','a','b','c','d','e','f','g','h','i','j',
   'k','l','m','n','o','p','q','r','s','t','u','v','w','x','y','z','0','1',
   '2','3','4','5','6','7','8','9','+','/']

/-- Value of a base64 digit character, or `none` for a foreign character. -/
def digitVal (c : Char) : Option Nat :=
  let i := b64chars.indexOf c
  if i < 64 then some i else none

/-- Character of a base64 digit value. -/
def b64char (d : Nat) : Char :=
  b64chars.getD d 'A'

/-- Sign decoding of a raw VLQ value: the least significant bit is the
sign, the rest the magnitude. -/
def fromVlq (n : Nat) : Int :=
  if n % 2 = 1 then -(Int.ofNat (n / 2)) else Int.ofNat (n / 2)

/-- Sign encoding into a raw VLQ value. -/
def toVlq (i : Int) : Nat :=
  if i < 0 then 2 * i.natAbs + 1 else 2 * i.natAbs

/-- Base64 digits of a raw VLQ value, least significant group first, the
continuation bit (32) set on every group but the last; `fuel` bounds the
recursion and any `fuel > n` is exact. -/
def encVlqAux : Nat → Nat → List Char
  | 0, _ => []
  | fuel + 1, n =>
    if n < 32 then [b64char n]
    else b64char (n % 32 + 32) :: encVlqAux fuel (n / 32)

/-- Base64 VLQ encoding of a signed value. -/
def encodeVlq (i : Int) : List Char :=
  encVlqAux (toVlq i + 1) (toVlq i)

/-- Parse a run of concatenated VLQ values: `shift`/`acc` hold the value
under construction, `mid` whether a value is unterminated. Fails on a
foreign character or an unterminated value. -/
def decVlqs : List Char → Nat → Nat → Bool → Option (List Int)
  | [], _, _, mid => if mid then none else some []
  | c :: rest, shift, acc, _ =>
    match digitVal c with
    | none => none
    | some d =>
      let acc2 := acc + d % 32 * 2 ^ shift
      if d < 32 then (decVlqs rest 0 0 false).map (fromVlq acc2 :: ·)
      else decVlqs rest (shift + 5) acc2 true

/-- Parse one segment group into its delta fields. -/
def decodeVlqs (g : List Char) : Option (List Int) :=
  decVlqs g 0 0 false

/-- Document-scoped running values of the delta decoder/encoder. -/
structure DocSt where
  prevSrc : Int
  prevOL : Int
  prevOC : Int
  prevName : Int
deriving DecidableEq

/-- Initial running values: all previous fields start at zero. -/
def st0 : DocSt := ⟨0, 0, 0, 0⟩

/-- Original-position payload of a codec-level segment: validated source
index, running original line/column (signed), optional validated name
index. -/
structure DOrig where
  srcIdx : Nat
  origLine : Int
  origCol : Int
  nameIdx : Option Nat
deriving DecidableEq

/-- A codec-level segment: generated line (by position in the stream),
running generated column (signed), optional original payload. -/
structure DSeg where
  genLine : Nat
  genCol : Int
  orig : Option DOrig
deriving DecidableEq

/-- Interpret one segment's delta fields at line `li` with previous
column `pc` and document state `st`: 1, 4 or 5 fields; table indices are
range-checked (spec §4.1 `MalformedMapping` on out-of-range indices or a
bad field count). Returns the segment, the new previous column and the
new document state. -/
def interpSeg (sl nl : Nat) (li : Nat) (pc : Int) (st : DocSt) :
    List Int → Except (List Char) (DSeg × Int × DocSt)
  | [dc] => .ok (⟨li, pc + dc, none⟩, pc + dc, st)
  | [dc, ds, dl, dcc] =>
    if 0 ≤ st.prevSrc + ds ∧ st.prevSrc + ds < sl then
      .ok (⟨li, pc + dc,
            some ⟨(st.prevSrc + ds).toNat, st.prevOL + dl, st.prevOC + dcc,
                  none⟩⟩,
           pc + dc,
           ⟨st.prevSrc + ds, st.prevOL + dl, st.prevOC + dcc, st.prevName⟩)
    else .error "source index out of range".toList
  | [dc, ds, dl, dcc, dn] =>
    if (0 ≤ st.prevSrc + ds ∧ st.prevSrc + ds < sl) ∧
        0 ≤ st.prevName + dn ∧ st.prevName + dn < nl then
      .ok (⟨li, pc + dc,
            some ⟨(st.prevSrc + ds).toNat, st.prevOL + dl, st.prevOC + dcc,
                  some (st.prevName + dn).toNat⟩⟩,
           pc + dc,
           ⟨st.prevSrc + ds, st.prevOL + dl, st.prevOC + dcc,
            st.prevName + dn⟩)
    else .error "table index out of range".toList
  | _ => .error "invalid segment field count".toList

/-- Decode the segment groups of one line, threading the previous column
(reset at the start of the line) and the document state. -/
def interpLine (sl nl : Nat) (li : Nat) :
    Int → DocSt → List (List Char) → Except (List Char) (List DSeg × DocSt)
  | _, st, [] => .ok ([], st)
  | pc, st, g :: gs =>
    match decodeVlqs g with
    | none => .error "malformed VLQ segment".toList
    | some fields =>
      match interpSeg sl nl li pc st fields with
      | .error e => .error e
      | .ok (seg, pc2, st2) =>
        match interpLine sl nl li pc2 st2 gs with
        | .error e => .error e
        | .ok (t, st3) => .ok (seg :: t, st3)

/-- Keep a segment group: the decoder skips empty groups (consecutive or
dangling separators produce nothing, as the library's scanner skips
separator characters). -/
def keepGroup (g : List Char) : Bool :=
  ¬ g.isEmpty

/-- Decode the lines of the stream in order, numbering them from `li`;
empty groups (consecutive or dangling separators) are skipped. -/
def interpLines (sl nl : Nat) :
    Nat → DocSt → List (List Char) → Except (List Char) (List DSeg)
  | _, _, [] => .ok []
  | li, st, ln :: rest =>
    match interpLine sl nl li 0 st ((splitOnChar ',' ln).filter keepGroup) with
    | .error e => .error e
    | .ok (segs, st2) =>
      match interpLines sl nl (li + 1) st2 rest with
      | .error e => .error e
      | .ok t => .ok (segs ++ t)

/-- Modelled from the spec: the Mapping Decoder (§4.1) over the encoded
stream, given the sizes of the sources and names tables. -/
def decodeMappings (s : List Char) (sl nl : Nat) : Except (List Char) (List DSeg) :=
  interpLines sl nl 0 st0 (splitOnChar ';' s)

/-- Delta fields of one segment given the previous column and document
state. -/
def segFields (pc : Int) (st : DocSt) (s : DSeg) : List Int :=
  match s.orig with
  | none => [s.genCol - pc]
  | some o =>
    [s.genCol - pc, (o.srcIdx : Int) - st.prevSrc, o.origLine - st.prevOL,
     o.origCol - st.prevOC] ++
    (match o.nameIdx with
     | none => []
     | some ni => [(ni : Int) - st.prevName])

/-- Document state after emitting a segment. -/
def stepSt (st : DocSt) (s : DSeg) : DocSt :=
  match s.orig with
  | none => st
  | some o =>
    ⟨o.srcIdx, o.origLine, o.origCol,
     match o.nameIdx with
     | none => st.prevName
     | some ni => (ni : Int)⟩

/-- Encode the segments of one line into groups, threading the previous
column and document state. -/
def encLine : Int → DocSt → List DSeg → List (List Char) × DocSt
  | _, st, [] => ([], st)
  | pc, st, s :: ss =>
    let grp := ((segFields pc st s).map encodeVlq).flatten
    let (gs, st2) := encLine s.genCol (stepSt st s) ss
    (grp :: gs, st2)

/-- Encode a list of lines, resetting the previous column at each line. -/
def encLines : DocSt → List (List DSeg) → List (List (List Char))
  | _, [] => []
  | st, ln :: rest =>
    let (gs, st2) := encLine 0 st ln
    gs :: encLines st2 rest

/-- Interleave a separator between groups. -/
def joinSep (sep : Char) : List (List Char) → List Char
  | [] => []
  | [g] => g
  | g :: gs => g ++ sep :: joinSep sep gs

/-- Group a line-sorted segment list into per-line lists starting at line
`li`; `fuel` bounds the number of lines and any `fuel` past the largest
line number is exact. -/
def toLines : Nat → Nat → List DSeg → List (List DSeg)
  | 0, _, _ => []
  | _, _, [] => []
  | fuel + 1, li, segs =>
    segs.takeWhile (·.genLine = li) ::
      toLines fuel (li + 1) (segs.dropWhile (·.genLine = li))

/-- Largest generated line number of a segment list. -/
def maxLine (segs : List DSeg) : Nat :=
  segs.foldr (fun s m => max s.genLine m) 0

/-- Modelled from the spec: the Mapping Encoder (§4.4), the inverse
serialisation of the decoder: group by generated line, delta-encode each
segment, join with `,` and `;`. -/
def encodeMappings (segs : List DSeg) : List Char :=
  joinSep ';'
    ((encLines st0 (toLines (maxLine segs + 1) 0 segs)).map (joinSep ','))

/-- A mapping document in wire form, restricted to the codec-relevant
fields. -/
structure WireDoc where
  sources : List (List Char)
  names : List (List Char)
  mappings : List Char
deriving DecidableEq

/-- Decode a wire document: segments plus the (passed-through) sources
and names tables. -/
def decodeDoc (w : WireDoc) :
    Except (List Char) (List DSeg × List (List Char) × List (List Char)) :=
  match decodeMappings w.mappings w.sources.length w.names.length with
  | .error e => .error e
  | .ok segs => .ok (segs, w.sources, w.names)

/-- Encode a segment list with its tables back into a wire document. -/
def encodeDoc (segs : List DSeg) (sources names : List (List Char)) : WireDoc :=
  ⟨sources, names, encodeMappings segs⟩

/-! ## Helper lemmas -/

theorem isEmpty_false_of_ne {α : Type} {l : List α} (h : l ≠ []) :
    l.isEmpty = false := by
  cases l with
  | nil => exact absurd rfl h
  | cons a t => rfl

theorem candidate_false_of_ne_line {line col : Nat} {s : Segment}
    (h : s.genLine ≠ line) : candidate line col s = false := by
  simp [candidate, h]

theorem findSeg_aux_none (segs : List Segment) (line col : Nat)
    (h : ∀ s ∈ segs, s.genLine ≠ line) :
    segs.foldl
      (fun acc s =>
        if candidate line col s then
          match acc with
          | none => some s
          | some b => if b.genCol < s.genCol then some s else acc
        else acc)
      none = none := by
  induction segs with
  | nil => rfl
  | cons s t ih =>
    have hc : candidate line col s = false :=
      candidate_false_of_ne_line (h s (List.mem_cons_self s t))
    simp only [List.foldl_cons, hc, Bool.false_eq_true, if_false]
    exact ih fun x hx => h x (List.mem_cons_of_mem s hx)

theorem findSeg_eq_none {segs : List Segment} {line : Nat} (col : Nat)
    (h : ∀ s ∈ segs, s.genLine ≠ line) : findSeg segs line col = none :=
  findSeg_aux_none segs line col h

theorem originalPositionFor_eq_none {d : SMDoc} {line : Nat} (col : Nat)
    (h : ∀ s ∈ d.segments, s.genLine ≠ line) :
    originalPositionFor d line col = none := by
  unfold originalPositionFor
  rw [findSeg_eq_none col h]

/-! ## Scenario data -/

/-- Mapping A of the spec's §8 end-to-end scenario: generated `(5,10)` →
`user.ts:2:3`, name `userController`. -/
def specA : SMDoc :=
  ⟨["user.ts".toList], ["userController".toList], none,
   [⟨5, 10, some ⟨0, 2, 3⟩, some 0⟩]⟩

/-- Mapping B's single segment of the §8 scenario: generated `(98,19)` →
intermediate `(5,10)`, name `_0x3a4f2b`. -/
def specB : BMapping :=
  ⟨98, 19, some ("stage1.js".toList, 5, 10), some "_0x3a4f2b".toList⟩

/-- A mapping document whose names table contains the empty string. -/
def emptyNameDoc : SMDoc :=
  ⟨["u.ts".toList], [[]], none, [⟨5, 10, some ⟨0, 2, 3⟩, some 0⟩]⟩

/-- A later-stage segment resolving through `emptyNameDoc`, carrying its
own name `bn`. -/
def emptyNameB : BMapping :=
  ⟨98, 19, some ("mid.js".toList, 5, 10), some "bn".toList⟩

/-- Fallback-scenario document (spec §8): a single mapped entry at column
0 of generated line 7, nothing anywhere else. -/
def fbDoc : SMDoc :=
  ⟨["orig.ts".toList], [], none, [⟨7, 0, some ⟨0, 3, 1⟩, none⟩]⟩

/-! ## Claims -/

/-- C6: the frame pattern parses
`    at _0x3a4f2b (d:\dist\user.js:98:19)` to function `_0x3a4f2b`, path
`d:\dist\user.js`, line 98, column 19; a parenthesis-less frame
`at dist/user.js:98:19` parses with function name `<anonymous>`; and
`Error: Test error` does not parse as a frame. -/
theorem c6_frame_pattern :
    parseFrame "    at _0x3a4f2b (d:\\dist\\user.js:98:19)".toList =
      some ("_0x3a4f2b".toList, "d:\\dist\\user.js".toList, 98, 19) ∧
    parseFrame "at dist/user.js:98:19".toList =
      some ("<anonymous>".toList, "dist/user.js".toList, 98, 19) ∧
    parseFrame "Error: Test error".toList = none := by
  refine ⟨by decide, by decide, by decide⟩

/-- C10 counterexample: for the relative path `a.ts.ts` (base name ending
in `.ts`), the code replaces the first occurrence of `.ts`, deriving
`./sourcemaps/a.js.ts.map`, not the suffix-replacement
`./sourcemaps/a.ts.js.map` the claim describes. -/
theorem c10_counterexample :
    computeSourceMapPath "./sourcemaps".toList "a.ts.ts".toList =
      "./sourcemaps/a.js.ts.map".toList ∧
    computeSourceMapPath "./sourcemaps".toList "a.ts.ts".toList ≠
      "./sourcemaps/a.ts.js.map".toList := by
  refine ⟨by decide, by decide⟩

/-- C10 (amended): for every relative frame path whose base name ends in
`.ts`, the mapping path is the base name with its first `.ts` occurrence
replaced by `.js`, plus `.map`, under the map directory; in particular a
plain `user.ts` frame is resolved through `user.js.map`. -/
theorem c10_ts_to_js_map :
    (∀ distDir p, isAbsolutePath p = false →
      ".ts".toList.isSuffixOf (posixBasename p) →
      computeSourceMapPath distDir p =
        joinPath distDir
          (replaceFirst (posixBasename p) ".ts".toList ".js".toList ++
            ".map".toList)) ∧
    computeSourceMapPath "./sourcemaps".toList "user.ts".toList =
      "./sourcemaps/user.js.map".toList := by
  constructor
  · intro distDir p h1 h2
    unfold computeSourceMapPath
    simp at h2
    simp [h1, h2]
  · decide

/-- C10 witness: the amended statement applied to the concrete relative
path `user.ts`. -/
theorem c10_ts_to_js_map_witness :
    computeSourceMapPath "./sourcemaps".toList "user.ts".toList =
      joinPath "./sourcemaps".toList
        (replaceFirst (posixBasename "user.ts".toList) ".ts".toList
          ".js".toList ++ ".map".toList) :=
  c10_ts_to_js_map.1 "./sourcemaps".toList "user.ts".toList (by decide)
    (by decide)

/-- C3: the Trace Resolver's resolution with fallback equals the exact
query, retried once at column 0 of the same line on failure; and on a
line with no segments at all, it misses outright — no data from any other
line is used. -/
theorem c3_column_fallback :
    ∀ (d : SMDoc) (line col : Nat),
      (resolveWithFallback d line col =
        match originalPositionFor d line col with
        | some r => some r
        | none => originalPositionFor d line 0) ∧
      ((∀ s ∈ d.segments, s.genLine ≠ line) →
        resolveWithFallback d line col = none) := by
  intro d line col
  constructor
  · unfold resolveWithFallback
    cases h : originalPositionFor d line col with
    | some r => rfl
    | none =>
      by_cases hc : col > 0
      · simp [hc]
      · have hz : col = 0 := by omega
        subst hz
        simp [h]
  · intro h
    unfold resolveWithFallback
    rw [originalPositionFor_eq_none col h]
    rw [originalPositionFor_eq_none 0 h]
    simp

/-- C3 witness: in the §8 fallback scenario (one mapped entry only at
column 0 of line 7), the query `(7,37)` goes through the exact-then-
column-0 policy and resolves, while line 8 (no segments) misses. -/
theorem c3_column_fallback_witness :
    (resolveWithFallback fbDoc 7 37 =
      match originalPositionFor fbDoc 7 37 with
      | some r => some r
      | none => originalPositionFor fbDoc 7 0) ∧
    resolveWithFallback fbDoc 8 37 = none ∧
    resolveWithFallback fbDoc 7 37 = some ⟨"orig.ts".toList, 3, 1, none⟩ :=
  ⟨(c3_column_fallback fbDoc 7 37).1,
   (c3_column_fallback fbDoc 8 37).2 (by decide),
   by decide⟩

/-- C2: during composition, a segment of B without an original position,
or whose original position A's resolver does not resolve, contributes
nothing to the output; every emitted segment stems from a resolvable
segment of B; and the loop is total (the output is never longer than B's
segment list — no error is raised, the segment is merely dropped). -/
theorem c2_unresolvable_dropped :
    ∀ (res : Nat → Nat → Option Resolved) (bs : List BMapping),
      (∀ m : BMapping, m.src = none → chainOne res m = none) ∧
      (∀ (m : BMapping) s ol oc, m.src = some (s, ol, oc) →
        res ol oc = none → chainOne res m = none) ∧
      (∀ c ∈ chainSegments res bs, ∃ m ∈ bs, ∃ s ol oc r,
        m.src = some (s, ol, oc) ∧ res ol oc = some r ∧
        chainOne res m = some c) ∧
      (chainSegments res bs).length ≤ bs.length := by
  intro res bs
  refine ⟨?_, ?_, ?_, ?_⟩
  · intro m h
    simp [chainOne, h]
  · intro m s ol oc hsrc hres
    simp [chainOne, hsrc, hres]
  · intro c hc
    obtain ⟨m, hm, hone⟩ := List.mem_filterMap.mp hc
    refine ⟨m, hm, ?_⟩
    cases hsrc : m.src with
    | none => simp [chainOne, hsrc] at hone
    | some t =>
      obtain ⟨s, ol, oc⟩ := t
      cases hres : res ol oc with
      | none => simp [chainOne, hsrc, hres] at hone
      | some r => exact ⟨s, ol, oc, r, rfl, hres, hone⟩
  · exact List.length_filterMap_le _ _

/-- C2 witness: the concrete scenario instantiated — a sourceless B
segment and an unresolvable one are both dropped, at a concrete
resolver. -/
theorem c2_unresolvable_dropped_witness :
    chainOne (originalPositionFor specA) ⟨1, 2, none, none⟩ = none ∧
    chainOne (originalPositionFor specA) ⟨1, 2, some ("x".toList, 40, 0), none⟩ = none ∧
    (chainSegments (originalPositionFor specA)
      [⟨1, 2, none, none⟩, ⟨1, 2, some ("x".toList, 40, 0), none⟩]).length ≤ 2 :=
  ⟨(c2_unresolvable_dropped (originalPositionFor specA) []).1 _ rfl,
   (c2_unresolvable_dropped (originalPositionFor specA) []).2.1 _ _ _ _ rfl (by decide),
   (c2_unresolvable_dropped (originalPositionFor specA)
      [⟨1, 2, none, none⟩, ⟨1, 2, some ("x".toList, 40, 0), none⟩]).2.2.2⟩

/-- C1 counterexample: mapping A resolves `(5,10)` and yields the name
`""` (its names table holds the empty string); the claim then demands the
emitted name be A's resolved name, but the code's `||` treats `""` as
falsy and emits B's own name `bn` instead. -/
theorem c1_counterexample :
    originalPositionFor emptyNameDoc 5 10 =
      some ⟨"u.ts".toList, 2, 3, some []⟩ ∧
    chainSegments (originalPositionFor emptyNameDoc) [emptyNameB] =
      [⟨98, 19, 2, 3, "u.ts".toList, some "bn".toList⟩] ∧
    some "bn".toList ≠ some ([] : List Char) := by
  refine ⟨by decide, by decide, by decide⟩

/-- C1 (amended): for every segment of B whose original position A's
resolver resolves, compose emits a segment at B's generated position
carrying A's resolved original position and source; the emitted name is
A's resolved name when A yields a non-empty one, otherwise B's own name.
In the §8 scenario, `(98,19)` resolves to `user.ts:2:3` with name
`userController`. -/
theorem c1_compose_emission :
    (∀ (res : Nat → Nat → Option Resolved) (bs : List BMapping)
        (m : BMapping) s ol oc r,
      m ∈ bs → m.src = some (s, ol, oc) → res ol oc = some r →
      chainOne res m =
        some ⟨m.genLine, m.genCol, r.origLine, r.origCol, r.source,
              match r.name with
              | some nm => if nm = [] then m.name else some nm
              | none => m.name⟩ ∧
      ∃ c, chainOne res m = some c ∧ c ∈ chainSegments res bs) ∧
    chainSegments (originalPositionFor specA) [specB] =
      [⟨98, 19, 2, 3, "user.ts".toList, some "userController".toList⟩] := by
  constructor
  · intro res bs m s ol oc r hm hsrc hres
    have hone : chainOne res m =
        some ⟨m.genLine, m.genCol, r.origLine, r.origCol, r.source,
              match r.name with
              | some nm => if nm = [] then m.name else some nm
              | none => m.name⟩ := by
      simp only [chainOne, hsrc, hres]
      cases hn : r.name with
      | none => simp [jsOrName]
      | some nm =>
        simp only [jsOrName]
        by_cases he : nm = []
        · simp [he]
        · simp [he, isEmpty_false_of_ne he]
    exact ⟨hone, _, hone, List.mem_filterMap.mpr ⟨m, hm, hone⟩⟩
  · decide

/-- C1 witness: the emission statement applied at the §8 scenario's
resolver and segment. -/
theorem c1_compose_emission_witness :
    chainOne (originalPositionFor specA) specB =
      some ⟨98, 19, 2, 3, "user.ts".toList,
            match (some "userController".toList : Option (List Char)) with
            | some nm => if nm = [] then specB.name else some nm
            | none => specB.name⟩ := by
  have h := (c1_compose_emission.1 (originalPositionFor specA) [specB]
    specB "stage1.js".toList 5 10 ⟨"user.ts".toList, 2, 3, some "userController".toList⟩
    (List.mem_singleton.mpr rfl) rfl (by decide)).1
  exact h

/-- C7 counterexample: the mapping resolves with name `""` (its names
table holds the empty string); `""` does not start with `_0x`, so the
claim demands it be reported, but the code's truthiness check falls back
to the frame's raw function name `_0xabc`. -/
theorem c7_counterexample :
    originalPositionFor emptyNameDoc 5 10 =
      some ⟨"u.ts".toList, 2, 3, some []⟩ ∧
    (translateLine
        (fun p => if p = "./sourcemaps/user.js.map".toList
                  then .ok emptyNameDoc else .missing)
        "./sourcemaps".toList
        "at _0xabc (user.js:5:10)".toList).translated =
      some ⟨"u.ts".toList, 2, 3, "_0xabc".toList, none⟩ ∧
    ¬ "_0x".toList.isPrefixOf ([] : List Char) := by
  refine ⟨by decide, by decide, by decide⟩

/-- C7 (amended): for every successfully resolved frame, the reported
name is the resolved original name when it is non-empty and does not
start with `_0x`; otherwise it is the raw function name parsed from the
frame. -/
theorem c7_display_name :
    ∀ (fs : List Char → DocResult) (dd line fn fp : List Char)
      (ln col : Nat) (d : SMDoc) (r : Resolved),
      parseFrame (trimChars line) = some (fn, fp, ln, col) →
      fp ≠ [] →
      fs (computeSourceMapPath dd fp) = .ok d →
      resolveWithFallback d ln col = some r →
      ((translateLine fs dd line).translated).map Translated.name =
        some (match r.name with
              | some nm =>
                if nm ≠ [] ∧ ¬ "_0x".toList.isPrefixOf nm then nm else fn
              | none => fn) := by
  intro fs dd line fn fp ln col d r hp hfp hfs hres
  unfold translateLine
  rw [hp]
  simp only [isEmpty_false_of_ne hfp, Bool.false_eq_true, if_false, hfs, hres]
  cases hn : r.name with
  | none => simp [displayName]
  | some nm =>
    simp only [displayName]
    by_cases he : nm = []
    · simp [he]
    · by_cases hpre : ['_', '0', 'x'] <+: nm
      · simp [isEmpty_false_of_ne he, hpre]
      · simp [isEmpty_false_of_ne he, hpre, he]

/-- C7 witness: a frame resolving to the non-empty, non-synthetic name
`userController` reports that name. -/
theorem c7_display_name_witness :
    ((translateLine
        (fun p => if p = "./sourcemaps/user.js.map".toList
                  then .ok specA else .missing)
        "./sourcemaps".toList
        "at _0x3a4f2b (user.js:5:10)".toList).translated).map
        Translated.name =
      some (match (some "userController".toList : Option (List Char)) with
            | some nm =>
              if nm ≠ [] ∧ ¬ "_0x".toList.isPrefixOf nm then nm
              else "_0x3a4f2b".toList
            | none => "_0x3a4f2b".toList) :=
  c7_display_name _ _ _ "_0x3a4f2b".toList "user.js".toList 5 10 specA
    ⟨"user.ts".toList, 2, 3, some "userController".toList⟩
    (by decide) (by decide) rfl (by decide)

/-- Every branch of `translateLine` carries the input line verbatim. -/
theorem translateLine_original (fs : List Char → DocResult) (dd line : List Char) :
    (translateLine fs dd line).original = line := by
  unfold translateLine
  repeat' split
  all_goals rfl

/-- C5: the translator emits exactly one entry per input line, in input
order, each carrying the line verbatim; a line that does not match the
frame pattern yields an entry with no translation (and no error) rather
than being discarded. -/
theorem c5_line_for_line :
    ∀ (fs : List Char → DocResult) (dd trace : List Char),
      (translateStackTrace fs dd trace).length =
        (splitOnChar '\n' trace).length ∧
      (∀ i, ((translateStackTrace fs dd trace).get? i).map FrameResult.original
          = (splitOnChar '\n' trace).get? i) ∧
      (∀ i l, (splitOnChar '\n' trace).get? i = some l →
        parseFrame (trimChars l) = none →
        (translateStackTrace fs dd trace).get? i = some ⟨l, none, none, none⟩) := by
  intro fs dd trace
  refine ⟨List.length_map _ _, ?_, ?_⟩
  · intro i
    unfold translateStackTrace
    rw [List.get?_map]
    cases h : (splitOnChar '\n' trace).get? i with
    | none => rfl
    | some l => simp [translateLine_original]
  · intro i l hl hp
    unfold translateStackTrace
    rw [List.get?_map, hl]
    simp only [Option.map_some']
    unfold translateLine
    rw [hp]

/-- C5 witness: a two-line trace whose first line is a bare error message
keeps both lines, the first as an untranslated passthrough. -/
theorem c5_line_for_line_witness :
    (translateStackTrace (fun _ => .missing) "./sourcemaps".toList
        "Error: Test error\n    at _0x3a4f2b (d:\\dist\\user.js:98:19)".toList).length =
      (splitOnChar '\n'
        "Error: Test error\n    at _0x3a4f2b (d:\\dist\\user.js:98:19)".toList).length ∧
    (translateStackTrace (fun _ => .missing) "./sourcemaps".toList
        "Error: Test error\n    at _0x3a4f2b (d:\\dist\\user.js:98:19)".toList).get? 0 =
      some ⟨"Error: Test error".toList, none, none, none⟩ :=
  ⟨(c5_line_for_line _ _ _).1,
   (c5_line_for_line (fun _ => .missing) "./sourcemaps".toList
      "Error: Test error\n    at _0x3a4f2b (d:\\dist\\user.js:98:19)".toList).2.2
      0 "Error: Test error".toList (by decide) (by decide)⟩

/-- C8: when A has no embedded `sourcesContent`, the composer pairs each
source with a read of the source path resolved against A's document
directory; one failed read only loses that one source's content (entries
are pointwise and independent), and the chained mappings do not depend on
the content file system at all. -/
theorem c8_content_readthrough :
    ∀ (a : SMDoc) (dir : List Char) (fs : List Char → Option (List Char))
      (bs : List BMapping),
      a.sourcesContent = none →
      ((composeChained a dir fs bs).contents.length = a.sources.length ∧
       (∀ i, (composeChained a dir fs bs).contents.get? i
           = (a.sources.get? i).map fun s => (s, fs (resolvePath dir s))) ∧
       (∀ fs2, (composeChained a dir fs2 bs).segments
           = (composeChained a dir fs bs).segments) ∧
       (∀ fs2 p, (∀ q, q ≠ p → fs2 q = fs q) →
         ∀ j s2, a.sources.get? j = some s2 → resolvePath dir s2 ≠ p →
           (composeChained a dir fs2 bs).contents.get? j
             = (composeChained a dir fs bs).contents.get? j)) := by
  intro a dir fs bs hsc
  refine ⟨?_, ?_, ?_, ?_⟩
  · simp [composeChained, embedContents, hsc]
  · intro i
    simp [composeChained, embedContents, hsc, List.get?_map]
  · intro fs2
    rfl
  · intro fs2 p hagree j s2 hj hne
    simp only [composeChained, embedContents, hsc, List.get?_map, hj,
      Option.map_some']
    rw [hagree _ hne]

/-- C8 witness: a two-source document without embedded content, over a
file system lacking the second source: the first source's content is
embedded, the second is omitted, and the mappings are unaffected. -/
theorem c8_content_readthrough_witness :
    (composeChained ⟨["a.ts".toList, "b.ts".toList], [], none, []⟩
        "maps".toList
        (fun q => if q = "maps/a.ts".toList then some "AAA".toList else none)
        []).contents.get? 1 =
      (["a.ts".toList, "b.ts".toList].get? 1).map
        (fun s => (s,
          (fun q => if q = "maps/a.ts".toList then some "AAA".toList else none)
            (resolvePath "maps".toList s))) :=
  (c8_content_readthrough ⟨["a.ts".toList, "b.ts".toList], [], none, []⟩
    "maps".toList
    (fun q => if q = "maps/a.ts".toList then some "AAA".toList else none)
    [] rfl).2.1 1

/-- C4: a failure on a single frame — missing mapping document, read or
decode error, or resolution miss — yields that one entry untranslated
with a descriptive error; each entry depends only on the file system at
its own mapping path, and the translator always emits one entry per line
(no failure stops the remaining frames); a failure to read either input
of a composition makes that one composition return a null result. -/
theorem c4_per_frame_failure :
    (∀ (fs : List Char → DocResult) (dd trace : List Char),
      (translateStackTrace fs dd trace).length =
        (splitOnChar '\n' trace).length) ∧
    (∀ (fs1 fs2 : List Char → DocResult) (dd line : List Char),
      (∀ fn fp ln col, parseFrame (trimChars line) = some (fn, fp, ln, col) →
        fp ≠ [] →
        fs1 (computeSourceMapPath dd fp) = fs2 (computeSourceMapPath dd fp)) →
      translateLine fs1 dd line = translateLine fs2 dd line) ∧
    (∀ (fs : List Char → DocResult) (dd line fn fp : List Char) (ln col : Nat),
      parseFrame (trimChars line) = some (fn, fp, ln, col) → fp ≠ [] →
      fs (computeSourceMapPath dd fp) = .missing →
      translateLine fs dd line =
        ⟨line, none,
         some ("Source map not found: ".toList ++ computeSourceMapPath dd fp),
         none⟩) ∧
    (∀ (fs : List Char → DocResult) (dd line fn fp msg : List Char) (ln col : Nat),
      parseFrame (trimChars line) = some (fn, fp, ln, col) → fp ≠ [] →
      fs (computeSourceMapPath dd fp) = .readErr msg →
      translateLine fs dd line =
        ⟨line, none, some ("Error reading source map: ".toList ++ msg), none⟩) ∧
    (∀ (fs : List Char → DocResult) (dd line fn fp : List Char) (ln col : Nat)
        (d : SMDoc),
      parseFrame (trimChars line) = some (fn, fp, ln, col) → fp ≠ [] →
      fs (computeSourceMapPath dd fp) = .ok d →
      resolveWithFallback d ln col = none →
      translateLine fs dd line =
        ⟨line, none, some "No original position found in source map".toList,
         none⟩) ∧
    (∀ (ra rb : DocResult) (dir : List Char)
        (fsr : List Char → Option (List Char)),
      (ra = .missing ∨ (∃ m, ra = .readErr m) ∨ rb = .missing ∨
        (∃ m, rb = .readErr m)) →
      chainSourceMaps ra rb dir fsr = none) := by
  refine ⟨?_, ?_, ?_, ?_, ?_, ?_⟩
  · intro fs dd trace
    exact List.length_map _ _
  · intro fs1 fs2 dd line hagree
    unfold translateLine
    cases hp : parseFrame (trimChars line) with
    | none => rfl
    | some q =>
      obtain ⟨fn, fp, ln, col⟩ := q
      by_cases hfp : fp = []
      · subst hfp
        rfl
      · simp only [isEmpty_false_of_ne hfp, Bool.false_eq_true, if_false]
        rw [hagree fn fp ln col hp hfp]
  · intro fs dd line fn fp ln col hp hfp hfs
    unfold translateLine
    rw [hp]
    simp only [isEmpty_false_of_ne hfp, Bool.false_eq_true, if_false, hfs]
  · intro fs dd line fn fp msg ln col hp hfp hfs
    unfold translateLine
    rw [hp]
    simp only [isEmpty_false_of_ne hfp, Bool.false_eq_true, if_false, hfs]
  · intro fs dd line fn fp ln col d hp hfp hfs hres
    unfold translateLine
    rw [hp]
    simp only [isEmpty_false_of_ne hfp, Bool.false_eq_true, if_false, hfs, hres]
  · intro ra rb dir fsr h
    rcases h with h | ⟨m, h⟩ | h | ⟨m, h⟩
    · subst h; cases rb <;> rfl
    · subst h; cases rb <;> rfl
    · subst h; cases ra <;> rfl
    · subst h; cases ra <;> rfl

/-- C4 witness: with an empty file system, the `d:\dist\user.js` frame
gets the descriptive missing-map error while remaining in place, and a
composition whose first input is missing returns null. -/
theorem c4_per_frame_failure_witness :
    translateLine (fun _ => .missing) "./sourcemaps".toList
        "    at _0x3a4f2b (d:\\dist\\user.js:98:19)".toList =
      ⟨"    at _0x3a4f2b (d:\\dist\\user.js:98:19)".toList, none,
       some ("Source map not found: ".toList ++
         computeSourceMapPath "./sourcemaps".toList "d:\\dist\\user.js".toList),
       none⟩ ∧
    chainSourceMaps .missing (.ok specA) "maps".toList (fun _ => none) = none :=
  ⟨c4_per_frame_failure.2.2.1 (fun _ => .missing) "./sourcemaps".toList
      "    at _0x3a4f2b (d:\\dist\\user.js:98:19)".toList
      "_0x3a4f2b".toList "d:\\dist\\user.js".toList 98 19 (by decide)
      (by decide) rfl,
   c4_per_frame_failure.2.2.2.2.2 .missing (.ok specA) "maps".toList
      (fun _ => none) (Or.inl rfl)⟩

/-! ## Codec roundtrip lemmas -/

theorem digitVal_b64char : ∀ d, d < 64 → digitVal (b64char d) = some d := by
  decide

theorem b64char_ne_sep : ∀ d, d < 64 → b64char d ≠ ';' ∧ b64char d ≠ ',' := by
  decide

theorem fromVlq_toVlq (i : Int) : fromVlq (toVlq i) = i := by
  unfold fromVlq toVlq
  by_cases h : i < 0
  · rw [if_pos h]
    rw [if_pos (by omega : (2 * i.natAbs + 1) % 2 = 1)]
    have h2 : (2 * i.natAbs + 1) / 2 = i.natAbs := by omega
    have h3 : (Int.ofNat i.natAbs) = -i := by
      rw [Int.ofNat_eq_natCast, Int.natCast_natAbs, abs_of_neg h]
    rw [h2, h3]
    ring
  · rw [if_neg h]
    rw [if_neg (by omega : ¬ 2 * i.natAbs % 2 = 1)]
    have h2 : 2 * i.natAbs / 2 = i.natAbs := by omega
    have h3 : (Int.ofNat i.natAbs) = i := by
      rw [Int.ofNat_eq_natCast, Int.natCast_natAbs,
        abs_of_nonneg (le_of_not_lt h)]
    rw [h2, h3]

theorem decVlqs_encVlqAux :
    ∀ fuel n rest shift acc b, n < fuel →
      decVlqs (encVlqAux fuel n ++ rest) shift acc b
        = (decVlqs rest 0 0 false).map (fromVlq (acc + n * 2 ^ shift) :: ·) := by
  intro fuel
  induction fuel with
  | zero => intro n _ _ _ _ h; omega
  | succ f ih =>
    intro n rest shift acc b h
    by_cases h32 : n < 32
    · have he : encVlqAux (f + 1) n = [b64char n] := by
        simp only [encVlqAux]
        rw [if_pos h32]
      rw [he, List.singleton_append]
      simp only [decVlqs, digitVal_b64char n (by omega)]
      rw [if_pos h32]
      rw [Nat.mod_eq_of_lt h32]
    · have he : encVlqAux (f + 1) n
          = b64char (n % 32 + 32) :: encVlqAux f (n / 32) := by
        simp only [encVlqAux]
        rw [if_neg h32]
      rw [he, List.cons_append]
      simp only [decVlqs, digitVal_b64char (n % 32 + 32) (by omega)]
      rw [if_neg (by omega : ¬ n % 32 + 32 < 32)]
      rw [ih (n / 32) rest (shift + 5) (acc + (n % 32 + 32) % 32 * 2 ^ shift)
        true (by omega)]
      have e1 : (n % 32 + 32) % 32 = n % 32 := by omega
      have e2 : acc + n % 32 * 2 ^ shift + n / 32 * 2 ^ (shift + 5)
          = acc + n * 2 ^ shift := by
        have h3 : n % 32 + 32 * (n / 32) = n := Nat.mod_add_div n 32
        calc acc + n % 32 * 2 ^ shift + n / 32 * 2 ^ (shift + 5)
            = acc + (n % 32 + 32 * (n / 32)) * 2 ^ shift := by
              rw [pow_add]; ring
          _ = acc + n * 2 ^ shift := by rw [h3]
      rw [e1, e2]

theorem decVlqs_encodeVlq (i : Int) (rest : List Char) (shift acc : Nat)
    (b : Bool) :
    decVlqs (encodeVlq i ++ rest) shift acc b
      = (decVlqs rest 0 0 false).map (fromVlq (acc + toVlq i * 2 ^ shift) :: ·) :=
  decVlqs_encVlqAux _ _ _ _ _ _ (by omega)

theorem decodeVlqs_flatten (fields : List Int) :
    decodeVlqs ((fields.map encodeVlq).flatten) = some fields := by
  induction fields with
  | nil => rfl
  | cons f fs ih =>
    simp only [List.map_cons, List.flatten_cons]
    unfold decodeVlqs
    rw [decVlqs_encodeVlq]
    unfold decodeVlqs at ih
    rw [ih]
    simp [fromVlq_toVlq]

/-- Table-index bounds of a codec segment. -/
def SegBounds (sl nl : Nat) (s : DSeg) : Prop :=
  match s.orig with
  | none => True
  | some o => o.srcIdx < sl ∧ ∀ ni ∈ o.nameIdx, ni < nl

theorem interpSeg_segFields (sl nl li : Nat) (pc : Int) (st : DocSt) (s : DSeg)
    (hl : s.genLine = li) (hb : SegBounds sl nl s) :
    interpSeg sl nl li pc st (segFields pc st s) = .ok (s, s.genCol, stepSt st s) := by
  obtain ⟨gl, gc, orig⟩ := s
  simp only at hl
  subst hl
  cases orig with
  | none =>
    simp only [segFields, interpSeg, stepSt]
    have e : pc + (gc - pc) = gc := by ring
    rw [e]
  | some o =>
    obtain ⟨si, ol, oc, ni⟩ := o
    obtain ⟨hsl, hnl⟩ := hb
    have eCol : pc + (gc - pc) = gc := by ring
    have eSrc : st.prevSrc + ((si : Int) - st.prevSrc) = si := by ring
    have eOL : st.prevOL + (ol - st.prevOL) = ol := by ring
    have eOC : st.prevOC + (oc - st.prevOC) = oc := by ring
    cases ni with
    | none =>
      simp only [segFields, List.append_nil, interpSeg, stepSt]
      rw [eCol, eSrc, eOL, eOC]
      rw [if_pos ⟨Int.natCast_nonneg si, by exact_mod_cast hsl⟩]
      rw [Int.toNat_natCast]
    | some nid =>
      have hnid : nid < nl := hnl nid rfl
      have eNm : st.prevName + ((nid : Int) - st.prevName) = nid := by ring
      simp only [segFields, List.cons_append, List.nil_append, interpSeg, stepSt]
      rw [eCol, eSrc, eOL, eOC, eNm]
      rw [if_pos ⟨⟨Int.natCast_nonneg si, by exact_mod_cast hsl⟩,
        Int.natCast_nonneg nid, by exact_mod_cast hnid⟩]
      rw [Int.toNat_natCast, Int.toNat_natCast]

theorem interpLine_encLine :
    ∀ (ls : List DSeg) (sl nl li : Nat) (pc : Int) (st : DocSt),
      (∀ s ∈ ls, s.genLine = li ∧ SegBounds sl nl s) →
      interpLine sl nl li pc st (encLine pc st ls).1
        = .ok (ls, (encLine pc st ls).2) := by
  intro ls
  induction ls with
  | nil => intro sl nl li pc st _; rfl
  | cons s ss ih =>
    intro sl nl li pc st h
    have h1 := h s (List.mem_cons_self s ss)
    rcases henc : encLine s.genCol (stepSt st s) ss with ⟨gs, st2⟩
    simp only [encLine, henc]
    simp only [interpLine, decodeVlqs_flatten]
    rw [interpSeg_segFields sl nl li pc st s h1.1 h1.2]
    have ih2 := ih sl nl li s.genCol (stepSt st s)
      fun x hx => h x (List.mem_cons_of_mem s hx)
    rw [henc] at ih2
    simp only at ih2
    simp only [ih2]

theorem splitOnChar_sepFree :
    ∀ (g : List Char) (sep : Char), (∀ c ∈ g, c ≠ sep) →
      splitOnChar sep g = [g] := by
  intro g sep
  induction g with
  | nil => intro _; rfl
  | cons c t ih =>
    intro h
    have hc : c ≠ sep := h c (List.mem_cons_self c t)
    simp only [splitOnChar, if_neg hc]
    rw [ih fun x hx => h x (List.mem_cons_of_mem c hx)]

theorem splitOnChar_append_sep :
    ∀ (g rest : List Char) (sep : Char), (∀ c ∈ g, c ≠ sep) →
      splitOnChar sep (g ++ sep :: rest) = g :: splitOnChar sep rest := by
  intro g rest sep
  induction g with
  | nil =>
    intro _
    simp [splitOnChar]
  | cons c t ih =>
    intro h
    have hc : c ≠ sep := h c (List.mem_cons_self c t)
    simp only [List.cons_append, splitOnChar, if_neg hc, List.append_eq]
    rw [ih fun x hx => h x (List.mem_cons_of_mem c hx)]

theorem splitOnChar_joinSep :
    ∀ (gs : List (List Char)) (sep : Char), gs ≠ [] →
      (∀ g ∈ gs, ∀ c ∈ g, c ≠ sep) →
      splitOnChar sep (joinSep sep gs) = gs := by
  intro gs
  induction gs with
  | nil => intro sep h _; exact absurd rfl h
  | cons g gs ih =>
    intro sep _ h
    cases gs with
    | nil =>
      simp only [joinSep]
      exact splitOnChar_sepFree g sep (h g (List.mem_cons_self g []))
    | cons g2 gs2 =>
      simp only [joinSep]
      rw [splitOnChar_append_sep g _ sep (h g (List.mem_cons_self g _))]
      rw [ih sep (by simp) fun x hx c hc => h x (List.mem_cons_of_mem g hx) c hc]

theorem filter_nonEmpty (gs : List (List Char)) (h : ∀ g ∈ gs, g ≠ []) :
    gs.filter keepGroup = gs := by
  rw [List.filter_eq_self]
  intro g hg
  simp [keepGroup, isEmpty_false_of_ne (h g hg)]

theorem encVlqAux_chars :
    ∀ (fuel n : Nat) (c : Char), c ∈ encVlqAux fuel n → c ≠ ';' ∧ c ≠ ',' := by
  intro fuel
  induction fuel with
  | zero => intro n c hc; simp [encVlqAux] at hc
  | succ f ih =>
    intro n c hc
    simp only [encVlqAux] at hc
    by_cases h32 : n < 32
    · rw [if_pos h32] at hc
      simp only [List.mem_singleton] at hc
      subst hc
      exact b64char_ne_sep n (by omega)
    · rw [if_neg h32] at hc
      rcases List.mem_cons.mp hc with hc | hc
      · subst hc
        exact b64char_ne_sep (n % 32 + 32) (by omega)
      · exact ih (n / 32) c hc

theorem encodeVlq_chars (i : Int) (c : Char) (hc : c ∈ encodeVlq i) :
    c ≠ ';' ∧ c ≠ ',' :=
  encVlqAux_chars _ _ c hc

theorem encodeVlq_ne_nil (i : Int) : encodeVlq i ≠ [] := by
  unfold encodeVlq
  simp only [encVlqAux]
  split <;> simp

theorem segFields_ne_nil (pc : Int) (st : DocSt) (s : DSeg) :
    segFields pc st s ≠ [] := by
  unfold segFields
  cases s.orig <;> simp

theorem segGroup_ne_nil (pc : Int) (st : DocSt) (s : DSeg) :
    ((segFields pc st s).map encodeVlq).flatten ≠ [] := by
  cases hf : segFields pc st s with
  | nil => exact absurd hf (segFields_ne_nil pc st s)
  | cons f fs =>
    simp only [List.map_cons, List.flatten_cons]
    intro hcontra
    exact encodeVlq_ne_nil f (List.append_eq_nil.mp hcontra).1

theorem segGroup_chars (pc : Int) (st : DocSt) (s : DSeg) (c : Char)
    (hc : c ∈ ((segFields pc st s).map encodeVlq).flatten) :
    c ≠ ';' ∧ c ≠ ',' := by
  obtain ⟨l, hl, hcl⟩ := List.mem_flatten.mp hc
  obtain ⟨i, _, hi⟩ := List.mem_map.mp hl
  subst hi
  exact encodeVlq_chars i c hcl

theorem encLine_groups :
    ∀ (ls : List DSeg) (pc : Int) (st : DocSt) (g : List Char),
      g ∈ (encLine pc st ls).1 → g ≠ [] ∧ ∀ c ∈ g, c ≠ ';' ∧ c ≠ ',' := by
  intro ls
  induction ls with
  | nil => intro pc st g hg; simp [encLine] at hg
  | cons s ss ih =>
    intro pc st g hg
    rcases henc : encLine s.genCol (stepSt st s) ss with ⟨gs, st2⟩
    simp only [encLine, henc] at hg
    rcases List.mem_cons.mp hg with hg | hg
    · subst hg
      exact ⟨segGroup_ne_nil pc st s, fun c hc => segGroup_chars pc st s c hc⟩
    · have := ih s.genCol (stepSt st s) g
      rw [henc] at this
      exact this hg

theorem joinSep_chars :
    ∀ (gs : List (List Char)) (sep c : Char), c ∈ joinSep sep gs →
      c = sep ∨ ∃ g ∈ gs, c ∈ g := by
  intro gs
  induction gs with
  | nil => intro sep c hc; simp [joinSep] at hc
  | cons g gs ih =>
    intro sep c hc
    cases gs with
    | nil =>
      simp only [joinSep] at hc
      exact Or.inr ⟨g, List.mem_cons_self g [], hc⟩
    | cons g2 gs2 =>
      simp only [joinSep] at hc
      rcases List.mem_append.mp hc with hc | hc
      · exact Or.inr ⟨g, List.mem_cons_self g _, hc⟩
      · rcases List.mem_cons.mp hc with hc | hc
        · exact Or.inl hc
        · rcases ih sep c hc with h | ⟨g3, hg3, hcg⟩
          · exact Or.inl h
          · exact Or.inr ⟨g3, List.mem_cons_of_mem g hg3, hcg⟩

theorem encLines_groups :
    ∀ (lls : List (List DSeg)) (st : DocSt) (gs : List (List Char)),
      gs ∈ encLines st lls →
      ∀ g ∈ gs, g ≠ [] ∧ ∀ c ∈ g, c ≠ ';' ∧ c ≠ ',' := by
  intro lls
  induction lls with
  | nil => intro st gs hgs; simp [encLines] at hgs
  | cons ln rest ih =>
    intro st gs hgs
    rcases henc : encLine 0 st ln with ⟨gs0, st2⟩
    simp only [encLines, henc] at hgs
    rcases List.mem_cons.mp hgs with hgs | hgs
    · subst hgs
      intro g hg
      have := encLine_groups ln 0 st g
      rw [henc] at this
      exact this hg
    · exact ih st2 gs hgs

/-- Per-line well-formedness of a list of line groups starting at `li`. -/
def LinesOk (sl nl : Nat) : Nat → List (List DSeg) → Prop
  | _, [] => True
  | li, ln :: rest =>
    (∀ s ∈ ln, s.genLine = li ∧ SegBounds sl nl s) ∧ LinesOk sl nl (li + 1) rest

theorem interpLines_encLines :
    ∀ (lls : List (List DSeg)) (sl nl li : Nat) (st : DocSt),
      LinesOk sl nl li lls →
      interpLines sl nl li st ((encLines st lls).map (joinSep ','))
        = .ok lls.flatten := by
  intro lls
  induction lls with
  | nil => intro sl nl li st _; rfl
  | cons ln rest ih =>
    intro sl nl li st h
    obtain ⟨hln, hrest⟩ := h
    rcases henc : encLine 0 st ln with ⟨gs, st2⟩
    simp only [encLines, henc, List.map_cons]
    simp only [interpLines]
    have hgrp : ∀ g ∈ gs, g ≠ [] ∧ ∀ c ∈ g, c ≠ ';' ∧ c ≠ ',' := by
      intro g hg
      have := encLine_groups ln 0 st g
      rw [henc] at this
      exact this hg
    have hsplit : (splitOnChar ',' (joinSep ',' gs)).filter keepGroup = gs := by
      cases hgs : gs with
      | nil => rfl
      | cons g0 gs0 =>
        rw [← hgs]
        rw [splitOnChar_joinSep gs ',' (by rw [hgs]; simp)
          fun g hg c hc => ((hgrp g hg).2 c hc).2]
        exact filter_nonEmpty gs fun g hg => (hgrp g hg).1
    rw [hsplit]
    have hline := interpLine_encLine ln sl nl li 0 st hln
    rw [henc] at hline
    simp only at hline
    simp only [hline, ih sl nl (li + 1) st2 hrest]
    simp

theorem dropWhile_head_false {α : Type} (p : α → Bool) :
    ∀ (l : List α) (h : α) (t : List α), l.dropWhile p = h :: t → p h = false := by
  intro l
  induction l with
  | nil => intro h t hd; simp [List.dropWhile] at hd
  | cons a l ih =>
    intro h t hd
    by_cases hp : p a
    · rw [List.dropWhile_cons_of_pos hp] at hd
      exact ih h t hd
    · rw [List.dropWhile_cons_of_neg hp] at hd
      injection hd with h1 _
      subst h1
      simpa using hp

theorem toLines_flatten :
    ∀ (fuel li : Nat) (segs : List DSeg),
      segs.Pairwise (fun a b => a.genLine ≤ b.genLine) →
      (∀ s ∈ segs, li ≤ s.genLine) →
      (∀ s ∈ segs, s.genLine < li + fuel) →
      (toLines fuel li segs).flatten = segs := by
  intro fuel
  induction fuel with
  | zero =>
    intro li segs _ hge hlt
    cases segs with
    | nil => rfl
    | cons s ss =>
      have h1 := hge s (List.mem_cons_self s ss)
      have h2 := hlt s (List.mem_cons_self s ss)
      omega
  | succ f ih =>
    intro li segs hsort hge hlt
    cases segs with
    | nil => rfl
    | cons s ss =>
      simp only [toLines, List.flatten_cons]
      have hsub : ((s :: ss).dropWhile (fun x => x.genLine = li)).Sublist (s :: ss) :=
        List.dropWhile_sublist _
      have hdsort : ((s :: ss).dropWhile (fun x => x.genLine = li)).Pairwise
          (fun a b => a.genLine ≤ b.genLine) := hsort.sublist hsub
      have hdge : ∀ x ∈ (s :: ss).dropWhile (fun x => x.genLine = li),
          li + 1 ≤ x.genLine := by
        cases hdc : (s :: ss).dropWhile (fun x => x.genLine = li) with
        | nil => simp
        | cons h t =>
          intro x hx
          have hph := dropWhile_head_false (fun x : DSeg => x.genLine = li) _ h t hdc
          have hhne : h.genLine ≠ li := by simpa using hph
          have hhmem : h ∈ s :: ss := hsub.subset (hdc ▸ List.mem_cons_self h t)
          have hhge : li ≤ h.genLine := hge h hhmem
          rcases List.mem_cons.mp hx with rfl | hxt
          · omega
          · have hpair := hdsort
            rw [hdc] at hpair
            have := (List.pairwise_cons.mp hpair).1 x hxt
            omega
      have hdlt : ∀ x ∈ (s :: ss).dropWhile (fun x => x.genLine = li),
          x.genLine < (li + 1) + f := by
        intro x hx
        have := hlt x (hsub.subset hx)
        omega
      rw [ih (li + 1) _ hdsort hdge hdlt]
      exact List.takeWhile_append_dropWhile _ _

theorem toLines_ok :
    ∀ (fuel li sl nl : Nat) (segs : List DSeg),
      (∀ s ∈ segs, SegBounds sl nl s) →
      LinesOk sl nl li (toLines fuel li segs) := by
  intro fuel
  induction fuel with
  | zero => intro li sl nl segs _; simp only [toLines]; exact True.intro
  | succ f ih =>
    intro li sl nl segs hb
    cases segs with
    | nil => exact True.intro
    | cons s ss =>
      refine ⟨?_, ?_⟩
      · intro x hx
        have hpx : x.genLine = li := by
          have := List.mem_takeWhile_imp hx
          simpa using this
        exact ⟨hpx, hb x ((List.takeWhile_sublist _).subset hx)⟩
      · exact ih (li + 1) sl nl _
          fun x hx => hb x ((List.dropWhile_sublist _).subset hx)

theorem le_maxLine : ∀ (segs : List DSeg) (s : DSeg), s ∈ segs →
    s.genLine ≤ maxLine segs := by
  intro segs
  induction segs with
  | nil => intro s hs; simp at hs
  | cons a t ih =>
    intro s hs
    simp only [maxLine, List.foldr_cons]
    rcases List.mem_cons.mp hs with rfl | hst
    · exact le_max_left _ _
    · exact le_trans (ih s hst) (le_max_right _ _)

theorem interpSeg_ok_facts :
    ∀ (sl nl li : Nat) (pc : Int) (st : DocSt) (fields : List Int)
      (seg : DSeg) (pc2 : Int) (st2 : DocSt),
      interpSeg sl nl li pc st fields = .ok (seg, pc2, st2) →
      seg.genLine = li ∧ SegBounds sl nl seg := by
  intro sl nl li pc st fields seg pc2 st2 h
  unfold interpSeg at h
  split at h
  · simp only [Except.ok.injEq, Prod.mk.injEq] at h
    obtain ⟨h1, _, _⟩ := h
    subst h1
    exact ⟨rfl, trivial⟩
  · split_ifs at h with hcond
    simp only [Except.ok.injEq, Prod.mk.injEq] at h
    obtain ⟨h1, _, _⟩ := h
    subst h1
    refine ⟨rfl, ?_⟩
    simp only [SegBounds]
    refine ⟨by omega, ?_⟩
    intro ni hni
    simp at hni
  · split_ifs at h with hcond
    simp only [Except.ok.injEq, Prod.mk.injEq] at h
    obtain ⟨h1, _, _⟩ := h
    subst h1
    refine ⟨rfl, ?_⟩
    simp only [SegBounds]
    refine ⟨by omega, ?_⟩
    intro ni hni
    simp only [Option.mem_def, Option.some.injEq] at hni
    subst hni
    omega
  · simp at h

theorem interpLine_ok_facts :
    ∀ (gs : List (List Char)) (sl nl li : Nat) (pc : Int) (st : DocSt)
      (ss : List DSeg) (st2 : DocSt),
      interpLine sl nl li pc st gs = .ok (ss, st2) →
      ∀ s ∈ ss, s.genLine = li ∧ SegBounds sl nl s := by
  intro gs
  induction gs with
  | nil =>
    intro sl nl li pc st ss st2 h
    simp only [interpLine, Except.ok.injEq, Prod.mk.injEq] at h
    obtain ⟨h1, _⟩ := h
    subst h1
    intro s hs
    simp at hs
  | cons g gs ih =>
    intro sl nl li pc st ss st2 h
    simp only [interpLine] at h
    cases hdec : decodeVlqs g with
    | none => simp [hdec] at h
    | some fields =>
      simp only [hdec] at h
      cases hseg : interpSeg sl nl li pc st fields with
      | error e => simp [hseg] at h
      | ok r =>
        obtain ⟨seg, pc2, stm⟩ := r
        simp only [hseg] at h
        cases hrec : interpLine sl nl li pc2 stm gs with
        | error e => simp [hrec] at h
        | ok r2 =>
          obtain ⟨t, st3⟩ := r2
          simp only [hrec, Except.ok.injEq, Prod.mk.injEq] at h
          obtain ⟨h1, _⟩ := h
          subst h1
          intro s hs
          rcases List.mem_cons.mp hs with rfl | hst
          · exact interpSeg_ok_facts _ _ _ _ _ _ _ _ _ hseg
          · exact ih _ _ _ _ _ _ _ hrec s hst

theorem interpLines_ok_facts :
    ∀ (lns : List (List Char)) (sl nl li : Nat) (st : DocSt) (segs : List DSeg),
      interpLines sl nl li st lns = .ok segs →
      (∀ s ∈ segs, li ≤ s.genLine ∧ SegBounds sl nl s) ∧
      segs.Pairwise (fun a b => a.genLine ≤ b.genLine) := by
  intro lns
  induction lns with
  | nil =>
    intro sl nl li st segs h
    simp only [interpLines, Except.ok.injEq] at h
    subst h
    exact ⟨by simp, List.Pairwise.nil⟩
  | cons ln rest ih =>
    intro sl nl li st segs h
    simp only [interpLines] at h
    cases hline : interpLine sl nl li 0 st
        ((splitOnChar ',' ln).filter keepGroup) with
    | error e => simp [hline] at h
    | ok r =>
      obtain ⟨sa, st2⟩ := r
      simp only [hline] at h
      cases hrest : interpLines sl nl (li + 1) st2 rest with
      | error e => simp [hrest] at h
      | ok t =>
        simp only [hrest, Except.ok.injEq] at h
        subst h
        have hA := interpLine_ok_facts _ _ _ _ _ _ _ _ hline
        have hB := ih _ _ _ _ _ hrest
        constructor
        · intro s hs
          rcases List.mem_append.mp hs with hs | hs
          · exact ⟨le_of_eq (hA s hs).1.symm, (hA s hs).2⟩
          · exact ⟨by have := (hB.1 s hs).1; omega, (hB.1 s hs).2⟩
        · rw [List.pairwise_append]
          refine ⟨?_, hB.2, ?_⟩
          · apply List.pairwise_of_forall_mem_list
            intro a ha b hb
            rw [(hA a ha).1, (hA b hb).1]
          · intro a ha b hb
            rw [(hA a ha).1]
            have := (hB.1 b hb).1
            omega

theorem decodeMappings_encodeMappings :
    ∀ (segs : List DSeg) (sl nl : Nat),
      (∀ s ∈ segs, SegBounds sl nl s) →
      segs.Pairwise (fun a b => a.genLine ≤ b.genLine) →
      decodeMappings (encodeMappings segs) sl nl = .ok segs := by
  intro segs sl nl hb hsort
  have hflat : (toLines (maxLine segs + 1) 0 segs).flatten = segs :=
    toLines_flatten (maxLine segs + 1) 0 segs hsort (by simp)
      fun s hs => by have := le_maxLine segs s hs; omega
  unfold decodeMappings encodeMappings
  cases hc : encLines st0 (toLines (maxLine segs + 1) 0 segs) with
  | nil =>
    have hlls : toLines (maxLine segs + 1) 0 segs = [] := by
      cases hq : toLines (maxLine segs + 1) 0 segs with
      | nil => rfl
      | cons ln rest =>
        rw [hq] at hc
        rcases henc : encLine 0 st0 ln with ⟨gs0, st2⟩
        simp [encLines, henc] at hc
    have hsegs : segs = [] := by
      rw [← hflat, hlls]
      rfl
    subst hsegs
    rfl
  | cons gs0 rest =>
    have hchars : ∀ ls ∈ (encLines st0
        (toLines (maxLine segs + 1) 0 segs)).map (joinSep ','),
        ∀ c ∈ ls, c ≠ ';' := by
      intro ls hls c hcm
      obtain ⟨gsx, hgsx, hje⟩ := List.mem_map.mp hls
      subst hje
      rcases joinSep_chars gsx ',' c hcm with rfl | ⟨g, hg, hcg⟩
      · simp
      · exact ((encLines_groups _ st0 gsx hgsx g hg).2 c hcg).1
    rw [← hc]
    rw [splitOnChar_joinSep _ ';' (by rw [hc]; simp) hchars]
    rw [interpLines_encLines _ sl nl 0 st0
      (toLines_ok (maxLine segs + 1) 0 sl nl segs hb)]
    rw [hflat]

/-- C9: decode, then encode, then decode again yields the identical
segment sequence and identical sources and names tables. -/
theorem c9_decode_encode_decode :
    ∀ (w : WireDoc) (segs : List DSeg) (srcs nms : List (List Char)),
      decodeDoc w = .ok (segs, srcs, nms) →
      decodeDoc (encodeDoc segs srcs nms) = .ok (segs, srcs, nms) := by
  intro w segs srcs nms h
  unfold decodeDoc at h
  cases hdec : decodeMappings w.mappings w.sources.length w.names.length with
  | error e => rw [hdec] at h; simp at h
  | ok segs0 =>
    rw [hdec] at h
    simp only [Except.ok.injEq, Prod.mk.injEq] at h
    obtain ⟨h1, h2, h3⟩ := h
    subst h1
    subst h2
    subst h3
    have hwf := interpLines_ok_facts _ _ _ _ _ _ hdec
    unfold decodeDoc encodeDoc
    simp only
    rw [decodeMappings_encodeMappings segs0 w.sources.length w.names.length
      (fun s hs => (hwf.1 s hs).2) hwf.2]

/-- C9 witness: a concrete wire document (two sources, two names, five
segments over three lines) decodes, and re-decoding its re-encoding
reproduces the same segments and tables. -/
theorem c9_decode_encode_decode_witness :
    decodeDoc ⟨["a.ts".toList, "b.ts".toList], ["x".toList, "y".toList],
        "AAAAA,KACEC;;G,ICGFD".toList⟩ =
      .ok ([⟨0, 0, some ⟨0, 0, 0, some 0⟩⟩, ⟨0, 5, some ⟨0, 1, 2, some 1⟩⟩,
            ⟨2, 3, none⟩, ⟨2, 7, some ⟨1, 4, 0, some 0⟩⟩],
           ["a.ts".toList, "b.ts".toList], ["x".toList, "y".toList]) ∧
    decodeDoc (encodeDoc
        [⟨0, 0, some ⟨0, 0, 0, some 0⟩⟩, ⟨0, 5, some ⟨0, 1, 2, some 1⟩⟩,
         ⟨2, 3, none⟩, ⟨2, 7, some ⟨1, 4, 0, some 0⟩⟩]
        ["a.ts".toList, "b.ts".toList] ["x".toList, "y".toList]) =
      .ok ([⟨0, 0, some ⟨0, 0, 0, some 0⟩⟩, ⟨0, 5, some ⟨0, 1, 2, some 1⟩⟩,
            ⟨2, 3, none⟩, ⟨2, 7, some ⟨1, 4, 0, some 0⟩⟩],
           ["a.ts".toList, "b.ts".toList], ["x".toList, "y".toList]) :=
  ⟨by rfl,
   c9_decode_encode_decode
     ⟨["a.ts".toList, "b.ts".toList], ["x".toList, "y".toList],
      "AAAAA,KACEC;;G,ICGFD".toList⟩
     _ _ _ (by rfl)⟩

end SM
